import Mathlib

/-!
Verification development for `vocabfinder.py`, a Bible vocabulary comparison
tool.  Python strings are modelled as lists of characters (`Word`); Python's
`str.strip`, `str.split`, `str.lower`, the substring operator `in`, and
whitespace word-splitting are embedded as executable Lean functions.  The
program pipeline (argument resolution, book-code table, vocabulary loader,
set difference, report renderer) is embedded faithfully from the source.
-/

namespace Vocabfinder

/-- A Python string, modelled as its list of characters (code points). -/
abbrev Word := List Char

/-- Whitespace recognised by Python's `str.strip()` / `str.split()`
(ASCII fragment; the corpus and claims involve no exotic Unicode spaces). -/
def pyIsSpace (c : Char) : Bool :=
  c = ' ' || c = '\t' || c = '\n' || c = '\r' || c = '\x0b' || c = '\x0c'

/-- Remove leading whitespace (Python `str.lstrip()`). -/
def stripLeft (s : Word) : Word := s.dropWhile pyIsSpace

/-- Remove trailing whitespace (Python `str.rstrip()`). -/
def stripRight (s : Word) : Word := (s.reverse.dropWhile pyIsSpace).reverse

/-- Python `str.strip()`: remove leading and trailing whitespace. -/
def pyStrip (s : Word) : Word := stripRight (stripLeft s)

/-- Python `str.split(sep)` for a one-character separator: keeps empty
fields, and the split of the empty string is `[""]`. -/
def pySplit (sep : Char) : Word → List Word
  | [] => [[]]
  | c :: rest =>
    match pySplit sep rest with
    | [] => [[c]]
    | f :: fs => if c = sep then [] :: f :: fs else (c :: f) :: fs

/-- Python tab-joining of fields (the inverse image of a split line). -/
def pyJoin (sep : Char) : List Word → Word
  | [] => []
  | [f] => f
  | f :: g :: fs => f ++ sep :: pyJoin sep (g :: fs)

/-- Python `str.lower()` (ASCII fragment; the only comparison made with the
result is against `"y"`, and `'Y'` is the only character lowering to `'y'`). -/
def pyLower (s : Word) : Word := s.map Char.toLower

/-- Boolean test that `pre` is a leading segment of `s`. -/
def listStarts (s pre : Word) : Bool :=
  match s, pre with
  | _, [] => true
  | [], _ :: _ => false
  | a :: as, b :: bs => a = b && listStarts as bs

/-- Python's `needle in hay` for strings: contiguous-substring containment
(the empty needle is contained in every string). -/
def pyIn (needle : Word) : Word → Bool
  | [] => needle.isEmpty
  | c :: rest => listStarts (c :: rest) needle || pyIn needle rest

/-- The punctuation string literal of `load_vocabulary` (line 100).  In the
Python source the apparent `''` in the middle of the literal in fact closes
and reopens the string, so by adjacent-literal concatenation the effective
string contains two ASCII double quotes and no single quotes:
`，。；：？！""（）【】《》` (14 characters). -/
def punctGlyphs : Word := "，。；：？！\"\"（）【】《》".data

/-- The USFM-abbreviation to book-number table (`USFM_TO_BOOK_NUM`). -/
def USFM_TO_BOOK_NUM : List (Word × Word) :=
  [("GEN".data, "01".data), ("EXO".data, "02".data), ("LEV".data, "03".data),
   ("NUM".data, "04".data), ("DEU".data, "05".data), ("JOS".data, "06".data),
   ("JDG".data, "07".data), ("RUT".data, "08".data), ("1SA".data, "09".data),
   ("2SA".data, "10".data), ("1KI".data, "11".data), ("2KI".data, "12".data),
   ("1CH".data, "13".data), ("2CH".data, "14".data), ("EZR".data, "15".data),
   ("NEH".data, "16".data), ("EST".data, "17".data), ("JOB".data, "18".data),
   ("PSA".data, "19".data), ("PRO".data, "20".data), ("ECC".data, "21".data),
   ("SNG".data, "22".data), ("ISA".data, "23".data), ("JER".data, "24".data),
   ("LAM".data, "25".data), ("EZK".data, "26".data), ("DAN".data, "27".data),
   ("HOS".data, "28".data), ("JOL".data, "29".data), ("AMO".data, "30".data),
   ("OBA".data, "31".data), ("JON".data, "32".data), ("MIC".data, "33".data),
   ("NAM".data, "34".data), ("HAB".data, "35".data), ("ZEP".data, "36".data),
   ("HAG".data, "37".data), ("ZEC".data, "38".data), ("MAL".data, "39".data),
   ("MAT".data, "40".data), ("MRK".data, "41".data), ("LUK".data, "42".data),
   ("JHN".data, "43".data), ("ACT".data, "44".data), ("ROM".data, "45".data),
   ("1CO".data, "46".data), ("2CO".data, "47".data), ("GAL".data, "48".data),
   ("EPH".data, "49".data), ("PHP".data, "50".data), ("COL".data, "51".data),
   ("1TH".data, "52".data), ("2TH".data, "53".data), ("1TI".data, "54".data),
   ("2TI".data, "55".data), ("TIT".data, "56".data), ("PHM".data, "57".data),
   ("HEB".data, "58".data), ("JAS".data, "59".data), ("1PE".data, "60".data),
   ("2PE".data, "61".data), ("1JN".data, "62".data), ("2JN".data, "63".data),
   ("3JN".data, "64".data), ("JUD".data, "65".data), ("REV".data, "66".data)]

/-- Python dict lookup `USFM_TO_BOOK_NUM[book]`, made total via `Option`. -/
def tableLookup (book : Word) : Option Word :=
  (USFM_TO_BOOK_NUM.find? fun p => p.1 == book).map Prod.snd

/-- The function `get_book_prefixes` (lines 58-60): the list comprehension
`[USFM_TO_BOOK_NUM[book] for book in books]`, which raises `KeyError`
(modelled by `none`) when a book is absent from the table. -/
def get_book_prefixes : List Word → Option (List Word)
  | [] => some []
  | b :: bs =>
    match tableLookup b, get_book_prefixes bs with
    | some v, some vs => some (v :: vs)
    | _, _ => none

/-- The function `validate_books` (lines 50-56): the list of abbreviations
absent from the table; the program errors out iff it is non-empty. -/
def invalidBooks (books : List Word) : List Word :=
  books.filter fun book => (tableLookup book).isNone

/-- Outcome of `load_vocabulary`: a vocabulary set on success, or one of the
two fatal error exits (`FileNotFoundError` handler, generic read handler). -/
inductive LoadResult where
  | ok (vocabulary : Finset Word)
  | fileNotFound
  | readError
deriving DecidableEq

/-- Exit status of a `load_vocabulary` outcome: `none` means the function
returned normally, `some c` means the process terminated via `sys.exit(c)`. -/
def LoadResult.exits : LoadResult → Option Nat
  | .ok _ => none
  | .fileNotFound => some 1
  | .readError => some 1

/-- Indexing `parts[i]` into the split fields of a line, with the empty
string as the (never used, see the length guards) out-of-range default. -/
def fieldAt (parts : List Word) (i : Nat) : Word := parts.getD i []

/-- The body of the `for line in file` loop of `load_vocabulary`
(lines 80-101), processing one raw line against the accumulated set. -/
def processLine (book_prefixes : List Word) (vocabulary : Finset Word)
    (line : Word) : Finset Word :=
  let parts := pySplit '\t' (pyStrip line)
  if parts.length < 8 then vocabulary
  else
    let id_field := fieldAt parts 0
    let text := fieldAt parts 2
    let exclude := if 4 < parts.length then fieldAt parts 4 else []
    if pyLower (pyStrip exclude) = ['y'] then vocabulary
    else if 2 ≤ id_field.length then
      let book_num := id_field.take 2
      if book_num ∈ book_prefixes then
        if pyStrip text ≠ [] ∧ pyIn (pyStrip text) punctGlyphs = false then
          insert (pyStrip text) vocabulary
        else vocabulary
      else vocabulary
    else vocabulary

/-- The function `load_vocabulary` (lines 62-111).  The file is `none` when
absent (`FileNotFoundError`), otherwise its list of lines.  `next(file)` on a
file with no lines raises `StopIteration`, which the generic
`except Exception` handler turns into the "Error reading file" exit. -/
def load_vocabulary (file : Option (List Word)) (book_prefixes : List Word) :
    LoadResult :=
  match file with
  | none => .fileNotFound
  | some [] => .readError
  | some (_ :: rest) => .ok (rest.foldl (processLine book_prefixes) ∅)

/-- Line 140: `unique_vocab = second_vocab - first_vocab`. -/
def unique_vocab (first_vocab second_vocab : Finset Word) : Finset Word :=
  second_vocab \ first_vocab

/-- One unit of report output: a (padded) word, a newline, the final count
line, or the "No unique vocabulary found" message. -/
inductive Out where
  | word (w : Word)
  | nl
  | total (n : Nat)
  | noUnique
deriving DecidableEq

/-- Python `f"{word:<10}"`: left-justify in a field of width 10. -/
def pad10 (w : Word) : Word := w ++ List.replicate (10 - w.length) ' '

/-- The `for i, word in enumerate(sorted_vocab, 1)` printing loop
(lines 156-159): after the word with 1-based index divisible by 6, a newline
is printed.  The argument is the 0-based count of words already printed. -/
def renderLoop : Nat → List Word → List Out
  | _, [] => []
  | i, w :: ws =>
    Out.word (pad10 w) ::
      (if (i + 1) % 6 = 0 then Out.nl :: renderLoop (i + 1) ws
       else renderLoop (i + 1) ws)

/-- The report tail of `main` (lines 148-167): for a non-empty difference
set, the sorted column-formatted word list, the closing newline when the last
line is partial, and the total line; for an empty set, the message branch. -/
def renderUnique (uniq : Finset Word) : List Out :=
  if uniq = ∅ then [Out.noUnique]
  else
    let sorted_vocab := uniq.sort (· ≤ ·)
    renderLoop 0 sorted_vocab ++
      (if sorted_vocab.length % 6 ≠ 0 then [Out.nl] else []) ++
      [Out.total uniq.card]

/-- Grouping of a list into consecutive runs of six, the shape of the
column-formatted output (used to state what the renderer prints). -/
def chunks6 {α : Type} : List α → List (List α)
  | [] => []
  | a :: rest => (a :: rest).take 6 :: chunks6 (rest.drop 5)
termination_by l => l.length
decreasing_by
  simp only [List.length_drop, List.length_cons]
  omega

/-- Python `str.split()` with no argument: split on whitespace runs,
discarding empty tokens.  The accumulator holds the current token reversed. -/
def pyWordsAux : Word → Word → List Word
  | [], acc => if acc.isEmpty then [] else [acc.reverse]
  | c :: rest, acc =>
    if pyIsSpace c then
      if acc.isEmpty then pyWordsAux rest []
      else acc.reverse :: pyWordsAux rest []
    else pyWordsAux rest (c :: acc)

/-- Python `str.split()` with no argument. -/
def pyWords (s : Word) : List Word := pyWordsAux s []

/-- Outcome of one run of `main`. -/
inductive MainResult where
  | usageError
  | unknownBooks (invalid : List Word)
  | fileNotFound
  | readError
  | success (first_vocab second_vocab uniq : Finset Word) (output : List Out)
deriving DecidableEq

/-- Process exit status of a run: every error path calls `sys.exit(1)`,
and a completed run exits with status 0. -/
def MainResult.exitCode : MainResult → Nat
  | .success _ _ _ _ => 0
  | _ => 1

/-- The function `main` (lines 113-167) together with `parse_arguments`:
`argv` is the full argument vector including the program name, `file` the
corpus file (as in `load_vocabulary`).  After validation every table lookup
succeeds, so the `getD` defaults below are never used (in Python a missing
key would raise `KeyError`, but `validate_books` has already exited). -/
def mainRun (argv : List Word) (file : Option (List Word)) : MainResult :=
  match argv with
  | [_, arg1, arg2] =>
    let first_books := pyWords arg1
    let second_books := pyWords arg2
    let invalid_books := invalidBooks (first_books ++ second_books)
    if invalid_books ≠ [] then .unknownBooks invalid_books
    else
      let first_prefixes := first_books.map fun b => (tableLookup b).getD []
      let second_prefixes := second_books.map fun b => (tableLookup b).getD []
      match load_vocabulary file first_prefixes with
      | .fileNotFound => .fileNotFound
      | .readError => .readError
      | .ok first_vocab =>
        match load_vocabulary file second_prefixes with
        | .fileNotFound => .fileNotFound
        | .readError => .readError
        | .ok second_vocab =>
          let uniq := unique_vocab first_vocab second_vocab
          .success first_vocab second_vocab uniq (renderUnique uniq)
  | _ => .usageError

/-! ### Helper lemmas -/

/-- C3: for all vocabulary sets A (first group) and B (second group), the
computed result R = B \ A satisfies: every element of R is in B and not in A;
every element of B is either in A or in R; and |R| = |B| - |B ∩ A|.
Membership is exact string (character-list) equality with no normalization. -/
theorem unique_vocab_correct (A B : Finset Word) :
    (∀ w ∈ unique_vocab A B, w ∈ B ∧ w ∉ A) ∧
    (∀ w ∈ B, w ∈ A ∨ w ∈ unique_vocab A B) ∧
    (unique_vocab A B).card = B.card - (B ∩ A).card := by
  refine ⟨?_, ?_, ?_⟩
  · intro w hw
    exact Finset.mem_sdiff.mp hw
  · intro w hw
    by_cases h : w ∈ A
    · exact Or.inl h
    · exact Or.inr (Finset.mem_sdiff.mpr ⟨hw, h⟩)
  · have h := Finset.card_sdiff_add_card_inter B A
    unfold unique_vocab
    omega

/-- Closed instance of the set-difference theorem at a concrete pair of
vocabulary sets, discharging the membership hypotheses by evaluation. -/
theorem unique_vocab_correct_witness :
    "b".data ∈ ({"a".data, "b".data} : Finset Word) ∧
    ("b".data ∈ ({"a".data} : Finset Word) ∨
      "b".data ∈ unique_vocab {"a".data} {"a".data, "b".data}) :=
  ⟨by decide,
   (unique_vocab_correct {"a".data} {"a".data, "b".data}).2.1 "b".data (by decide)⟩

/-- C10: on a corpus file that exists but is completely empty (no lines at
all), the loader does not return a vocabulary set: the attempt to skip the
header raises, the generic read-failure handler catches it, and the process
exits with status 1 via the generic "Error reading file" path (the
constructor distinct from the file-not-found path). -/
theorem load_vocabulary_empty_file (book_prefixes : List Word) :
    load_vocabulary (some []) book_prefixes = LoadResult.readError ∧
    (load_vocabulary (some []) book_prefixes).exits = some 1 ∧
    decide (load_vocabulary (some []) book_prefixes = LoadResult.ok ∅) = false ∧
    decide (LoadResult.readError = LoadResult.fileNotFound) = false := by
  exact ⟨rfl, rfl, rfl, rfl⟩

/-- A line whose stripped split has fewer than 8 fields leaves the
accumulated vocabulary untouched (the `continue` at line 83). -/
lemma processLine_short (book_prefixes : List Word) (vocabulary : Finset Word)
    (line : Word) (h : (pySplit '\t' (pyStrip line)).length < 8) :
    processLine book_prefixes vocabulary line = vocabulary := by
  simp only [processLine]
  rw [if_pos h]

/-- C6: a data line splitting into fewer than 8 tab-separated fields is
skipped silently: it leaves the accumulated set unchanged, and deleting it
from the file does not change the loader's (error-free) outcome. -/
theorem short_line_skipped (book_prefixes : List Word) (line : Word)
    (h : (pySplit '\t' (pyStrip line)).length < 8) :
    (∀ vocabulary, processLine book_prefixes vocabulary line = vocabulary) ∧
    ∀ (header : Word) (pre post : List Word),
      load_vocabulary (some (header :: (pre ++ line :: post))) book_prefixes =
        load_vocabulary (some (header :: (pre ++ post))) book_prefixes := by
  have hskip := fun v => processLine_short book_prefixes v line h
  refine ⟨hskip, ?_⟩
  intro hd pre post
  simp [load_vocabulary, List.foldl_append, hskip]

/-- Closed instance: a line with exactly 7 tab-separated fields whose id
matches the target prefix contributes nothing. -/
theorem short_line_skipped_witness :
    processLine ["40".data] ∅ "40001001\ta\thello\ta\t\ta\ta".data = ∅ :=
  (short_line_skipped ["40".data] "40001001\ta\thello\ta\t\ta\ta".data (by decide)).1 ∅

/-- C4: when every supplied abbreviation is a key of the book-code table,
get_book_prefixes returns exactly the table lookups of each abbreviation, in
input order, duplicates preserved. -/
theorem get_book_prefixes_map (books : List Word)
    (h : ∀ b ∈ books, (tableLookup b).isSome) :
    get_book_prefixes books =
      some (books.map fun b => (tableLookup b).getD []) := by
  induction books with
  | nil => rfl
  | cons b bs ih =>
    obtain ⟨v, hv⟩ := Option.isSome_iff_exists.mp (h b (List.mem_cons_self b bs))
    have hrest := ih fun x hx => h x (List.mem_cons_of_mem b hx)
    simp only [get_book_prefixes]
    rw [hv, hrest]
    simp [hv]

/-- Closed instance of the argument-resolver theorem, with a duplicated
abbreviation to exhibit order and duplicate preservation. -/
theorem get_book_prefixes_map_witness :
    get_book_prefixes ["MAT".data, "MAT".data, "GEN".data] =
      some ["40".data, "40".data, "01".data] := by
  rw [get_book_prefixes_map _ (by decide)]
  decide

/-- C5: if any supplied abbreviation, in either argument list, is missing
from the book-code table, the run ends in the validation error carrying the
full list of offending abbreviations (every unrecognized abbreviation is
listed, not just the first), and the process exit status is 1. -/
theorem unknown_books_fatal (prog arg1 arg2 : Word) (file : Option (List Word))
    (b : Word) (hb : b ∈ pyWords arg1 ++ pyWords arg2)
    (hmiss : tableLookup b = none) :
    mainRun [prog, arg1, arg2] file =
      MainResult.unknownBooks (invalidBooks (pyWords arg1 ++ pyWords arg2)) ∧
    b ∈ invalidBooks (pyWords arg1 ++ pyWords arg2) ∧
    (∀ c ∈ pyWords arg1 ++ pyWords arg2, tableLookup c = none →
      c ∈ invalidBooks (pyWords arg1 ++ pyWords arg2)) ∧
    (mainRun [prog, arg1, arg2] file).exitCode = 1 := by
  have hball : ∀ c ∈ pyWords arg1 ++ pyWords arg2, tableLookup c = none →
      c ∈ invalidBooks (pyWords arg1 ++ pyWords arg2) := by
    intro c hc hcn
    exact List.mem_filter.mpr ⟨hc, by simp [hcn]⟩
  have hbmem : b ∈ invalidBooks (pyWords arg1 ++ pyWords arg2) := hball b hb hmiss
  have hne : invalidBooks (pyWords arg1 ++ pyWords arg2) ≠ [] := by
    intro hnil
    rw [hnil] at hbmem
    exact absurd hbmem (List.not_mem_nil b)
  have hrun : mainRun [prog, arg1, arg2] file =
      MainResult.unknownBooks (invalidBooks (pyWords arg1 ++ pyWords arg2)) := by
    simp only [mainRun]
    rw [if_pos hne]
  exact ⟨hrun, hbmem, hball, by rw [hrun]; rfl⟩

/-- Closed instance of the validation-error theorem at a concrete invocation
with an unknown abbreviation in the first list. -/
theorem unknown_books_fatal_witness :
    mainRun ["prog".data, "XYZ MAT".data, "GEN".data] none =
      MainResult.unknownBooks
        (invalidBooks (pyWords "XYZ MAT".data ++ pyWords "GEN".data)) :=
  (unknown_books_fatal "prog".data "XYZ MAT".data "GEN".data none "XYZ".data
    (by decide) (by decide)).1

/-- C1: for a data line with at least 8 tab-separated fields, processed
against a prefix set of two-character codes, the loader adds exactly the
line's trimmed text (field 2) to the set, and does so iff the first two
characters of the id (field 0) are in the prefix set, the trimmed
lower-cased exclude field (field 4) is not "y", the trimmed text is
non-empty, and the trimmed text is not caught by the punctuation rule. -/
theorem load_inclusion_iff (book_prefixes : List Word)
    (hp : ∀ p ∈ book_prefixes, p.length = 2)
    (vocabulary : Finset Word) (line : Word)
    (h8 : 8 ≤ (pySplit '\t' (pyStrip line)).length) :
    processLine book_prefixes vocabulary line =
      if (fieldAt (pySplit '\t' (pyStrip line)) 0).take 2 ∈ book_prefixes ∧
          pyLower (pyStrip (fieldAt (pySplit '\t' (pyStrip line)) 4)) ≠ ['y'] ∧
          pyStrip (fieldAt (pySplit '\t' (pyStrip line)) 2) ≠ [] ∧
          pyIn (pyStrip (fieldAt (pySplit '\t' (pyStrip line)) 2)) punctGlyphs = false
        then insert (pyStrip (fieldAt (pySplit '\t' (pyStrip line)) 2)) vocabulary
        else vocabulary := by
  simp only [processLine]
  have hlt : ¬((pySplit '\t' (pyStrip line)).length < 8) := by omega
  have h4 : 4 < (pySplit '\t' (pyStrip line)).length := by omega
  rw [if_neg hlt, if_pos h4]
  set parts := pySplit '\t' (pyStrip line) with hparts
  by_cases hB : pyLower (pyStrip (fieldAt parts 4)) = ['y']
  · simp [hB]
  · by_cases hA : (fieldAt parts 0).take 2 ∈ book_prefixes
    · have hid : 2 ≤ (fieldAt parts 0).length := by
        have h2 := hp _ hA
        rw [List.length_take] at h2
        omega
      simp [hA, hB, hid]
    · simp [hA, hB, ite_self]

/-- Closed instance of the inclusion theorem on a well-formed line whose
token survives every filter. -/
theorem load_inclusion_iff_witness :
    processLine ["40".data] ∅ "40001001\tx\thello\tx\t\tx\tx\tx".data =
      insert "hello".data ∅ := by
  rw [load_inclusion_iff ["40".data] (by decide) ∅
    "40001001\tx\thello\tx\t\tx\tx\tx".data (by decide)]
  decide

/-- Characterization of listStarts: the needle is a leading segment. -/
lemma listStarts_iff (s pre : Word) :
    listStarts s pre = true ↔ ∃ rest, s = pre ++ rest := by
  induction pre generalizing s with
  | nil =>
    simp [listStarts]
  | cons b bs ih =>
    cases s with
    | nil => simp [listStarts]
    | cons a as =>
      simp only [listStarts, Bool.and_eq_true, decide_eq_true_eq, ih,
        List.cons_append, List.cons.injEq]
      constructor
      · rintro ⟨hab, rest, hr⟩
        exact ⟨rest, hab, hr⟩
      · rintro ⟨rest, hab, hr⟩
        exact ⟨hab, rest, hr⟩

/-- Characterization of Python's substring operator: pyIn holds iff the hay
splits as some material, the needle, then some material, contiguously. -/
lemma pyIn_iff (needle hay : Word) :
    pyIn needle hay = true ↔ ∃ pre post, hay = pre ++ needle ++ post := by
  induction hay with
  | nil =>
    simp only [pyIn, List.isEmpty_iff]
    constructor
    · rintro rfl
      exact ⟨[], [], rfl⟩
    · rintro ⟨pre, post, h⟩
      rcases List.append_eq_nil.mp h.symm with ⟨h1, h2⟩
      exact (List.append_eq_nil.mp h1).2
  | cons c rest ih =>
    simp only [pyIn, Bool.or_eq_true, listStarts_iff, ih]
    constructor
    · rintro (⟨tail, ht⟩ | ⟨pre, post, hp⟩)
      · exact ⟨[], tail, by simpa using ht⟩
      · exact ⟨c :: pre, post, by simp [hp]⟩
    · rintro ⟨pre, post, hp⟩
      cases pre with
      | nil =>
        exact Or.inl ⟨post, by simpa using hp⟩
      | cons p ps =>
        simp only [List.cons_append, List.cons.injEq] at hp
        exact Or.inr ⟨ps, post, hp.2⟩

/-- C2 counterexample: the trimmed token "，。" has length two (greater than
one), passes the prefix, exclude-flag and non-emptiness filters on a
well-formed 8-field line, yet the punctuation rule does exclude it (nothing
is added), because the source's check is substring containment in the glyph
string, not an exact single-character match. -/
theorem punct_rule_length_two_excluded :
    (pyStrip "，。".data).length = 2 ∧
    pyIn (pyStrip "，。".data) punctGlyphs = true ∧
    ("40001001".data.take 2 ∈ [("40".data : Word)] ∧
      pyLower (pyStrip "".data) ≠ ['y'] ∧ pyStrip "，。".data ≠ []) ∧
    processLine ["40".data] ∅ "40001001\tx\t，。\tx\t\tx\tx\tx".data = ∅ := by
  decide

/-- C2 amended: the punctuation rule rejects a trimmed token iff the token
is a contiguous substring of the fixed glyph string
，。；：？！""（）【】《》 (so every single listed glyph is rejected, and so
are contiguous multi-glyph runs, while any token mixing punctuation with
other characters, such as "，hello", is not rejected by this rule). -/
theorem punct_rule_substring (t : Word) :
    (pyIn t punctGlyphs = true ↔ ∃ pre post, punctGlyphs = pre ++ t ++ post) ∧
    pyIn "，hello".data punctGlyphs = false ∧
    pyIn "，".data punctGlyphs = true := by
  exact ⟨pyIn_iff t punctGlyphs, by decide, by decide⟩

/-- Closed instance of the amended punctuation rule: the two-glyph run
"；：" is rejected, witnessed by its explicit decomposition of the glyph
string. -/
theorem punct_rule_substring_witness :
    pyIn "；：".data punctGlyphs = true :=
  (punct_rule_substring "；：".data).1.mpr
    ⟨"，。".data, "？！\"\"（）【】《》".data, by decide⟩

/-- Splitting never yields an empty field list. -/
lemma pySplit_ne_nil (sep : Char) (s : Word) : pySplit sep s ≠ [] := by
  cases s with
  | nil => simp [pySplit]
  | cons c rest =>
    simp only [pySplit]
    cases pySplit sep rest with
    | nil => simp
    | cons f fs =>
      by_cases h : c = sep <;> simp [h]

/-- The number of fields is one more than the number of separators. -/
lemma length_pySplit (sep : Char) (s : Word) :
    (pySplit sep s).length = s.count sep + 1 := by
  induction s with
  | nil => simp [pySplit]
  | cons c rest ih =>
    simp only [pySplit]
    cases hps : pySplit sep rest with
    | nil => exact absurd hps (pySplit_ne_nil sep rest)
    | cons f fs =>
      rw [hps] at ih
      by_cases hc : c = sep
      · subst hc
        simp only [if_pos rfl, List.length_cons, List.count_cons]
        simp only [List.length_cons] at ih
        simp
        omega
      · simp only [if_neg hc, List.length_cons, List.count_cons]
        simp only [List.length_cons] at ih
        simp [hc]
        omega

/-- Splitting a separator-free string yields that single field. -/
lemma pySplit_no_sep (sep : Char) (f : Word) (h : sep ∉ f) :
    pySplit sep f = [f] := by
  induction f with
  | nil => rfl
  | cons c rest ih =>
    have hc : c ≠ sep := fun e => h (by simp [e])
    have hr : sep ∉ rest := fun e => h (List.mem_cons_of_mem _ e)
    simp only [pySplit, ih hr]
    simp [hc]

/-- Splitting peels off a separator-free leading field. -/
lemma pySplit_append_sep (sep : Char) (f t : Word) (hf : sep ∉ f) :
    pySplit sep (f ++ sep :: t) = f :: pySplit sep t := by
  induction f with
  | nil =>
    simp only [List.nil_append, pySplit]
    cases hps : pySplit sep t with
    | nil => exact absurd hps (pySplit_ne_nil sep t)
    | cons g gs => simp
  | cons c rest ih =>
    have hc : c ≠ sep := fun e => hf (by simp [e])
    have hr : sep ∉ rest := fun e => hf (List.mem_cons_of_mem _ e)
    simp only [List.cons_append, pySplit, List.append_eq]
    rw [ih hr]
    simp [hc]

/-- Unfolding equation of pyJoin on two or more fields. -/
lemma pyJoin_cons_cons (sep : Char) (f g : Word) (fs : List Word) :
    pyJoin sep (f :: g :: fs) = f ++ sep :: pyJoin sep (g :: fs) := rfl

/-- Splitting inverts joining when no field contains the separator. -/
lemma pySplit_pyJoin (sep : Char) :
    ∀ L : List Word, L ≠ [] → (∀ f ∈ L, sep ∉ f) →
      pySplit sep (pyJoin sep L) = L
  | [], h, _ => absurd rfl h
  | [f], _, hf => by
    simp [pyJoin, pySplit_no_sep sep f (hf f (by simp))]
  | f :: g :: fs, _, hf => by
    rw [pyJoin_cons_cons,
      pySplit_append_sep sep f (pyJoin sep (g :: fs)) (hf f (by simp)),
      pySplit_pyJoin sep (g :: fs) (by simp)
        fun x hx => hf x (List.mem_cons_of_mem _ hx)]

/-- Appending one empty field appends one separator to the joined string. -/
lemma pyJoin_append_nil (sep : Char) :
    ∀ L : List Word, L ≠ [] → pyJoin sep (L ++ [[]]) = pyJoin sep L ++ [sep]
  | [], h => absurd rfl h
  | [f], _ => by simp [pyJoin]
  | f :: g :: fs, _ => by
    have hrec := pyJoin_append_nil sep (g :: fs) (by simp)
    simp only [List.cons_append] at hrec
    simp only [List.cons_append, pyJoin_cons_cons, hrec]
    simp

/-- Appending k empty fields appends k separators to the joined string. -/
lemma pyJoin_append_replicate (sep : Char) (L : List Word) (hL : L ≠ []) :
    ∀ k, pyJoin sep (L ++ List.replicate k []) =
      pyJoin sep L ++ List.replicate k sep
  | 0 => by simp
  | k + 1 => by
    rw [List.replicate_succ' k ([] : Word), ← List.append_assoc,
      pyJoin_append_nil sep (L ++ List.replicate k [])
        (fun h => hL (List.append_eq_nil.mp h).1),
      pyJoin_append_replicate sep L hL k,
      List.replicate_succ' k sep, List.append_assoc]

/-- Separator count of a join of separator-free fields. -/
lemma count_pyJoin (sep : Char) :
    ∀ L : List Word, L ≠ [] → (∀ f ∈ L, sep ∉ f) →
      (pyJoin sep L).count sep = L.length - 1
  | [], h, _ => absurd rfl h
  | [f], _, hf => by
    simp [pyJoin, List.count_eq_zero.mpr (hf f (by simp))]
  | f :: g :: fs, _, hf => by
    have hrec := count_pyJoin sep (g :: fs) (by simp)
      fun x hx => hf x (List.mem_cons_of_mem _ hx)
    simp only [List.length_cons, Nat.add_sub_cancel] at hrec
    rw [pyJoin_cons_cons, List.count_append]
    simp [List.count_cons, List.count_eq_zero.mpr (hf f (by simp)), hrec]

/-- Dropping from a concatenation whose first part is fully dropped. -/
lemma dropWhile_append_all (p : Char → Bool) (l1 l2 : Word)
    (h : ∀ a ∈ l1, p a) :
    (l1 ++ l2).dropWhile p = l2.dropWhile p := by
  induction l1 with
  | nil => rfl
  | cons a t ih =>
    simp only [List.cons_append, List.dropWhile_cons, h a (by simp)]
    simp only [if_true]
    exact ih fun x hx => h x (by simp [hx])

/-- Dropping from a concatenation stops inside a non-exhausted first part. -/
lemma dropWhile_append_of_ne_nil (p : Char → Bool) (l1 l2 : Word)
    (h : l1.dropWhile p ≠ []) :
    (l1 ++ l2).dropWhile p = l1.dropWhile p ++ l2 := by
  induction l1 with
  | nil => simp [List.dropWhile] at h
  | cons a t ih =>
    by_cases ha : p a
    · have h' : t.dropWhile p ≠ [] := by
        simpa [List.dropWhile_cons, ha] using h
      simp [List.dropWhile_cons, ha, ih h']
    · simp [List.dropWhile_cons, ha]

/-- Right strip ignores an all-whitespace suffix. -/
lemma stripRight_append_space (x suffix : Word)
    (h : ∀ c ∈ suffix, pyIsSpace c) :
    stripRight (x ++ suffix) = stripRight x := by
  unfold stripRight
  rw [List.reverse_append,
    dropWhile_append_all _ _ _ fun a ha => h a (List.mem_reverse.mp ha)]

/-- Right strip produces a sublist. -/
lemma stripRight_sublist (s : Word) : (stripRight s).Sublist s := by
  unfold stripRight
  simpa using List.Sublist.reverse (List.dropWhile_sublist (l := s.reverse) _)

/-- Stripping produces a sublist. -/
lemma pyStrip_sublist (s : Word) : (pyStrip s).Sublist s :=
  (stripRight_sublist (stripLeft s)).trans (List.dropWhile_sublist _)

/-- C8: a raw data line built from 7 tab-free fields followed by one or more
empty trailing fields does split into at least 8 tab-separated fields, yet
after the pre-split whitespace strip (which removes the trailing tabs) the
loader sees fewer than 8 fields and skips the line, whatever the contents of
the id, text and exclude fields. -/
theorem trailing_tabs_line_skipped (fields : List Word) (k : Nat)
    (hlen : fields.length = 7) (hk : 1 ≤ k)
    (htab : ∀ f ∈ fields, '\t' ∉ f) :
    8 ≤ (pySplit '\t' (pyJoin '\t' (fields ++ List.replicate k []))).length ∧
    ∀ (vocabulary : Finset Word) (book_prefixes : List Word),
      processLine book_prefixes vocabulary
        (pyJoin '\t' (fields ++ List.replicate k [])) = vocabulary := by
  have hfne : fields ≠ [] := by
    intro h
    rw [h] at hlen
    simp at hlen
  have hall : ∀ f ∈ fields ++ List.replicate k [], '\t' ∉ f := by
    intro f hf
    rcases List.mem_append.mp hf with h | h
    · exact htab f h
    · rw [List.eq_of_mem_replicate h]
      simp
  have hraw : pyJoin '\t' (fields ++ List.replicate k []) =
      pyJoin '\t' fields ++ List.replicate k '\t' :=
    pyJoin_append_replicate '\t' fields hfne k
  constructor
  · rw [pySplit_pyJoin '\t' (fields ++ List.replicate k [])
      (fun h => hfne (List.append_eq_nil.mp h).1) hall]
    simp [hlen]
    omega
  · intro v bp
    have hbody : (pyJoin '\t' fields).count '\t' = 6 := by
      rw [count_pyJoin '\t' fields hfne htab, hlen]
    have htabs : ∀ c ∈ List.replicate k '\t', pyIsSpace c = true := by
      intro c hc
      rw [List.eq_of_mem_replicate hc]
      rfl
    have hcount :
        (pyStrip (pyJoin '\t' (fields ++ List.replicate k []))).count '\t' ≤ 6 := by
      rw [hraw]
      unfold pyStrip
      by_cases hsl : stripLeft (pyJoin '\t' fields) = []
      · have hallsp : ∀ a ∈ pyJoin '\t' fields, pyIsSpace a :=
          List.dropWhile_eq_nil_iff.mp hsl
        have hz : stripLeft (pyJoin '\t' fields ++ List.replicate k '\t') = [] := by
          unfold stripLeft
          rw [dropWhile_append_all _ _ _ hallsp]
          exact List.dropWhile_eq_nil_iff.mpr htabs
        rw [hz]
        simp [stripRight]
      · unfold stripLeft at hsl ⊢
        rw [dropWhile_append_of_ne_nil _ _ _ hsl,
          stripRight_append_space _ _ htabs]
        calc (stripRight ((pyJoin '\t' fields).dropWhile pyIsSpace)).count '\t'
            ≤ (pyJoin '\t' fields).count '\t' :=
              List.Sublist.count_le
                ((stripRight_sublist _).trans (List.dropWhile_sublist _)) '\t'
          _ = 6 := hbody
    have hlen8 :
        (pySplit '\t' (pyStrip (pyJoin '\t' (fields ++ List.replicate k [])))).length < 8 := by
      rw [length_pySplit]
      omega
    exact processLine_short bp v _ hlen8

/-- Closed instance of the trailing-tabs theorem: a raw line of 7 satisfying
fields plus one trailing tab (8 raw fields) contributes nothing. -/
theorem trailing_tabs_line_skipped_witness :
    processLine ["40".data] ∅
      (pyJoin '\t' (["40001001".data, "x".data, "hello".data, "x".data,
        [], "x".data, "x".data] ++ List.replicate 1 [])) = ∅ :=
  (trailing_tabs_line_skipped
    ["40001001".data, "x".data, "hello".data, "x".data, [], "x".data, "x".data]
    1 (by decide) (by decide) (by decide)).2 ∅ ["40".data]

/-- Right-stripping a string with a non-whitespace head keeps that head. -/
lemma stripRight_shape (a : Char) (t : Word) (ha : pyIsSpace a = false) :
    ∃ t', stripRight (a :: t) = a :: t' := by
  unfold stripRight
  rw [List.reverse_cons]
  by_cases h : t.reverse.dropWhile pyIsSpace = []
  · have hallsp := List.dropWhile_eq_nil_iff.mp h
    rw [dropWhile_append_all _ _ _ hallsp]
    exact ⟨[], by simp [List.dropWhile_cons, ha]⟩
  · rw [dropWhile_append_of_ne_nil _ _ _ h]
    exact ⟨(t.reverse.dropWhile pyIsSpace).reverse, by simp⟩

/-- Left strip is a no-op after a right strip of a left-stripped string. -/
lemma stripLeft_stripRight_fix (s : Word) (hs : stripLeft s = s) :
    stripLeft (stripRight s) = stripRight s := by
  cases s with
  | nil => rfl
  | cons a t =>
    have ha : pyIsSpace a = false := by
      unfold stripLeft at hs
      rw [List.dropWhile_cons] at hs
      by_cases h : pyIsSpace a
      · exfalso
        rw [if_pos h] at hs
        have hsub := List.dropWhile_sublist (l := t) pyIsSpace
        rw [hs] at hsub
        have hlen := hsub.length_le
        simp at hlen
      · simpa using h
    obtain ⟨t', ht'⟩ := stripRight_shape a t ha
    rw [ht']
    unfold stripLeft
    simp [List.dropWhile_cons, ha]

/-- Right strip is idempotent. -/
lemma stripRight_idem (s : Word) : stripRight (stripRight s) = stripRight s := by
  unfold stripRight
  rw [List.reverse_reverse, List.dropWhile_idempotent]

/-- Strip is idempotent. -/
lemma pyStrip_idem (s : Word) : pyStrip (pyStrip s) = pyStrip s := by
  unfold pyStrip
  rw [stripLeft_stripRight_fix (stripLeft s) (List.dropWhile_idempotent _ _),
    stripRight_idem]

/-- One loop iteration either leaves the set unchanged or inserts the
trimmed (non-empty) text field of the line. -/
lemma processLine_cases (book_prefixes : List Word) (vocabulary : Finset Word)
    (line : Word) :
    processLine book_prefixes vocabulary line = vocabulary ∨
    (processLine book_prefixes vocabulary line =
        insert (pyStrip (fieldAt (pySplit '\t' (pyStrip line)) 2)) vocabulary ∧
      pyStrip (fieldAt (pySplit '\t' (pyStrip line)) 2) ≠ []) := by
  simp only [processLine]
  split_ifs <;>
    first
      | exact Or.inl rfl
      | (refine Or.inr ⟨rfl, ?_⟩
         have hg : pyStrip (fieldAt (pySplit '\t' (pyStrip line)) 2) ≠ [] ∧
             pyIn (pyStrip (fieldAt (pySplit '\t' (pyStrip line)) 2))
               punctGlyphs = false := by assumption
         exact hg.1)

/-- One loop iteration preserves the invariant that every stored word is
non-empty and equal to its own strip. -/
lemma processLine_inv (book_prefixes : List Word) (vocabulary : Finset Word)
    (line : Word)
    (hv : ∀ w ∈ vocabulary, w ≠ [] ∧ pyStrip w = w) :
    ∀ w ∈ processLine book_prefixes vocabulary line, w ≠ [] ∧ pyStrip w = w := by
  intro w hw
  rcases processLine_cases book_prefixes vocabulary line with hc | ⟨hc, hne⟩
  · rw [hc] at hw
    exact hv w hw
  · rw [hc] at hw
    rcases Finset.mem_insert.mp hw with rfl | hmem
    · exact ⟨hne, pyStrip_idem _⟩
    · exact hv w hmem

/-- C9: whenever the loader returns successfully, every word in the returned
vocabulary set is a non-empty string that equals its own strip (no leading
or trailing whitespace). -/
theorem loaded_words_stripped (file : Option (List Word))
    (book_prefixes : List Word) (S : Finset Word)
    (h : load_vocabulary file book_prefixes = LoadResult.ok S) :
    ∀ w ∈ S, w ≠ [] ∧ pyStrip w = w := by
  rcases file with _ | lines
  · simp [load_vocabulary] at h
  · rcases lines with _ | ⟨hd, rest⟩
    · simp [load_vocabulary] at h
    · simp only [load_vocabulary, LoadResult.ok.injEq] at h
      subst h
      have hfold : ∀ (ls : List Word) (v : Finset Word),
          (∀ w ∈ v, w ≠ [] ∧ pyStrip w = w) →
          ∀ w ∈ ls.foldl (processLine book_prefixes) v, w ≠ [] ∧ pyStrip w = w := by
        intro ls
        induction ls with
        | nil => exact fun v hv => hv
        | cons l ls ih =>
          intro v hv
          exact ih _ (processLine_inv book_prefixes v l hv)
      exact hfold rest ∅ (by simp)

/-- Closed instance of the stripped-words invariant on a concrete successful
load. -/
theorem loaded_words_stripped_witness :
    "hello".data ≠ [] ∧ pyStrip "hello".data = "hello".data :=
  loaded_words_stripped
    (some ["hdr".data, "40001001\tx\t hello \tx\t\tx\tx\tx".data])
    ["40".data] (insert "hello".data ∅) (by decide) "hello".data (by decide)

/-- Loop step away from a column boundary: just the padded word. -/
lemma renderLoop_cons_ne (i : Nat) (h : (i + 1) % 6 ≠ 0) (w : Word)
    (ws : List Word) :
    renderLoop i (w :: ws) = Out.word (pad10 w) :: renderLoop (i + 1) ws := by
  simp [renderLoop, h]

/-- Loop step at a column boundary: the padded word then a newline. -/
lemma renderLoop_cons_eq (i : Nat) (h : (i + 1) % 6 = 0) (w : Word)
    (ws : List Word) :
    renderLoop i (w :: ws) =
      Out.word (pad10 w) :: Out.nl :: renderLoop (i + 1) ws := by
  simp [renderLoop, h]

/-- Starting at a column boundary, the loop emits one full (or final
partial) line of up to six padded words. -/
lemma renderLoop_step (i : Nat) (hi : i % 6 = 0) (ws : List Word) :
    renderLoop i ws =
      ((ws.take 6).map fun w => Out.word (pad10 w)) ++
        (if 6 ≤ ws.length then Out.nl :: renderLoop (i + 6) (ws.drop 6)
         else []) := by
  rcases ws with _ | ⟨w1, _ | ⟨w2, _ | ⟨w3, _ | ⟨w4, _ | ⟨w5, _ | ⟨w6, rest⟩⟩⟩⟩⟩⟩
  · simp [renderLoop]
  · rw [renderLoop_cons_ne i (by omega)]
    simp [renderLoop]
  · rw [renderLoop_cons_ne i (by omega), renderLoop_cons_ne (i + 1) (by omega)]
    simp [renderLoop]
  · rw [renderLoop_cons_ne i (by omega), renderLoop_cons_ne (i + 1) (by omega),
      renderLoop_cons_ne (i + 1 + 1) (by omega)]
    simp [renderLoop]
  · rw [renderLoop_cons_ne i (by omega), renderLoop_cons_ne (i + 1) (by omega),
      renderLoop_cons_ne (i + 1 + 1) (by omega),
      renderLoop_cons_ne (i + 1 + 1 + 1) (by omega)]
    simp [renderLoop]
  · rw [renderLoop_cons_ne i (by omega), renderLoop_cons_ne (i + 1) (by omega),
      renderLoop_cons_ne (i + 1 + 1) (by omega),
      renderLoop_cons_ne (i + 1 + 1 + 1) (by omega),
      renderLoop_cons_ne (i + 1 + 1 + 1 + 1) (by omega)]
    simp [renderLoop]
  · rw [renderLoop_cons_ne i (by omega), renderLoop_cons_ne (i + 1) (by omega),
      renderLoop_cons_ne (i + 1 + 1) (by omega),
      renderLoop_cons_ne (i + 1 + 1 + 1) (by omega),
      renderLoop_cons_ne (i + 1 + 1 + 1 + 1) (by omega),
      renderLoop_cons_eq (i + 1 + 1 + 1 + 1 + 1) (by omega)]
    have h6 : i + 1 + 1 + 1 + 1 + 1 + 1 = i + 6 := by omega
    rw [h6]
    simp

/-- Chunks of an empty list. -/
lemma chunks6_nil {α : Type} : chunks6 ([] : List α) = [] := by
  simp [chunks6]

/-- Chunks of a non-empty list: first six, then the chunks of the rest. -/
lemma chunks6_cons {α : Type} (a : α) (rest : List α) :
    chunks6 (a :: rest) = (a :: rest).take 6 :: chunks6 (rest.drop 5) := by
  simp [chunks6]

/-- Chunking and rejoining restores the list. -/
lemma chunks6_join {α : Type} (n : Nat) :
    ∀ l : List α, l.length ≤ n → (chunks6 l).flatten = l := by
  induction n with
  | zero =>
    intro l hl
    rw [List.length_eq_zero.mp (Nat.le_zero.mp hl)]
    simp [chunks6_nil]
  | succ n ih =>
    intro l hl
    cases l with
    | nil => simp [chunks6_nil]
    | cons a rest =>
      rw [chunks6_cons]
      have hd : (rest.drop 5).length ≤ n := by
        simp only [List.length_drop]
        simp only [List.length_cons] at hl
        omega
      simp only [List.flatten_cons, ih (rest.drop 5) hd]
      rw [← List.drop_succ_cons (n := 5) (a := a) (l := rest)]
      exact List.take_append_drop 6 (a :: rest)

/-- Every chunk is non-empty and holds at most six elements. -/
lemma chunks6_mem {α : Type} (n : Nat) :
    ∀ l : List α, l.length ≤ n → ∀ c ∈ chunks6 l, c ≠ [] ∧ c.length ≤ 6 := by
  induction n with
  | zero =>
    intro l hl c hc
    rw [List.length_eq_zero.mp (Nat.le_zero.mp hl)] at hc
    simp [chunks6_nil] at hc
  | succ n ih =>
    intro l hl c hc
    cases l with
    | nil => simp [chunks6_nil] at hc
    | cons a rest =>
      rw [chunks6_cons] at hc
      rcases List.mem_cons.mp hc with rfl | hmem
      · refine ⟨by simp, ?_⟩
        rw [List.length_take]
        omega
      · refine ih (rest.drop 5) ?_ c hmem
        simp only [List.length_drop]
        simp only [List.length_cons] at hl
        omega

/-- Every chunk except possibly the last holds exactly six elements. -/
lemma chunks6_dropLast {α : Type} (n : Nat) :
    ∀ l : List α, l.length ≤ n → ∀ c ∈ (chunks6 l).dropLast, c.length = 6 := by
  induction n with
  | zero =>
    intro l hl c hc
    rw [List.length_eq_zero.mp (Nat.le_zero.mp hl)] at hc
    simp [chunks6_nil] at hc
  | succ n ih =>
    intro l hl c hc
    cases l with
    | nil => simp [chunks6_nil] at hc
    | cons a rest =>
      rw [chunks6_cons] at hc
      cases hch : chunks6 (rest.drop 5) with
      | nil =>
        rw [hch] at hc
        simp at hc
      | cons c2 cs =>
        rw [hch] at hc
        have hc' : c ∈ (a :: rest).take 6 :: (c2 :: cs).dropLast := by
          simpa using hc
        rcases List.mem_cons.mp hc' with rfl | hmem
        · have hrest : rest.drop 5 ≠ [] := by
            intro h
            rw [h, chunks6_nil] at hch
            exact List.noConfusion hch
          have h5 : 5 < rest.length := by
            by_contra hle
            push_neg at hle
            exact hrest (List.drop_eq_nil_of_le hle)
          rw [List.length_take]
          simp only [List.length_cons]
          omega
        · have hd : (rest.drop 5).length ≤ n := by
            simp only [List.length_drop]
            simp only [List.length_cons] at hl
            omega
          have := ih (rest.drop 5) hd c
          rw [hch] at this
          exact this hmem

/-- Starting at a column boundary and closing the final partial line, the
loop output is exactly the chunked rendering: each six-word chunk as its
padded words followed by one newline. -/
lemma renderLoop_chunks (n : Nat) :
    ∀ (ws : List Word) (i : Nat), ws.length ≤ n → i % 6 = 0 →
      renderLoop i ws ++ (if ws.length % 6 ≠ 0 then [Out.nl] else []) =
        ((chunks6 ws).map fun c =>
          (c.map fun w => Out.word (pad10 w)) ++ [Out.nl]).flatten := by
  induction n with
  | zero =>
    intro ws i hw hi
    rw [List.length_eq_zero.mp (Nat.le_zero.mp hw)]
    simp [renderLoop, chunks6_nil]
  | succ n ih =>
    intro ws i hw hi
    cases ws with
    | nil => simp [renderLoop, chunks6_nil]
    | cons a rest =>
      rw [renderLoop_step i hi]
      by_cases h6 : 6 ≤ (a :: rest).length
      · rw [if_pos h6]
        have hdrop : ((a :: rest).drop 6).length ≤ n := by
          simp only [List.length_drop]
          simp only [List.length_cons] at hw ⊢
          omega
        have hrec := ih ((a :: rest).drop 6) (i + 6) hdrop (by omega)
        have hmod : (a :: rest).length % 6 = ((a :: rest).drop 6).length % 6 := by
          simp only [List.length_drop]
          simp only [List.length_cons] at h6 ⊢
          omega
        rw [hmod, chunks6_cons, List.map_cons, List.flatten_cons,
          ← List.drop_succ_cons (n := 5) (a := a) (l := rest), ← hrec]
        simp
      · rw [if_neg h6]
        have hlen' : (a :: rest).length = rest.length + 1 := List.length_cons a rest
        have hle : rest.length + 1 ≤ 6 := by
          rw [← hlen']
          omega
        have hmod : (a :: rest).length % 6 ≠ 0 := by
          rw [hlen']
          omega
        rw [if_pos hmod, chunks6_cons]
        have hdrop5 : rest.drop 5 = [] := List.drop_eq_nil_of_le (by omega)
        have hlen6 : (a :: rest).length ≤ 6 := by omega
        rw [hdrop5, chunks6_nil, List.take_of_length_le hlen6]
        simp

/-- C7 counterexample: for the non-empty difference set containing the one
word "a", the renderer emits a single output line holding exactly one padded
word, not six, before the total count line — so the words are not printed
with exactly six words on every output line. -/
theorem render_single_word_line :
    ({"a".data} : Finset Word) ≠ ∅ ∧
    renderUnique {"a".data} =
      [Out.word (pad10 "a".data), Out.nl, Out.total 1] ∧
    (1 : Nat) ≠ 6 := by
  refine ⟨by decide, ?_, by decide⟩
  rw [renderUnique, if_neg (by decide)]
  rw [Finset.sort_singleton]
  simp [renderLoop]

/-- C7 amended: the report tail prints, for a non-empty difference set,
exactly the lexicographically sorted words, padded and grouped six to an
output line — every line except possibly the last has exactly six words,
and no line has more or is empty — followed by the total count line; for an
empty difference set it prints the "no unique vocabulary" message and no
word list. -/
theorem render_report (uniq : Finset Word) :
    renderUnique uniq =
      (if uniq = ∅ then [Out.noUnique]
       else ((chunks6 (uniq.sort (· ≤ ·))).map fun c =>
          (c.map fun w => Out.word (pad10 w)) ++ [Out.nl]).flatten ++
        [Out.total uniq.card]) ∧
    List.Sorted (· ≤ ·) (uniq.sort (· ≤ ·)) ∧
    (uniq.sort (· ≤ ·)).toFinset = uniq ∧
    (chunks6 (uniq.sort (· ≤ ·))).flatten = uniq.sort (· ≤ ·) ∧
    ((chunks6 (uniq.sort (· ≤ ·))).dropLast.all fun c => c.length == 6) = true ∧
    ((chunks6 (uniq.sort (· ≤ ·))).all fun c =>
      !c.isEmpty && decide (c.length ≤ 6)) = true := by
  refine ⟨?_, Finset.sort_sorted _ _, Finset.sort_toFinset _ _,
    chunks6_join (uniq.sort (· ≤ ·)).length _ le_rfl, ?_, ?_⟩
  · by_cases he : uniq = ∅
    · simp [renderUnique, he]
    · rw [if_neg he]
      simp only [renderUnique, if_neg he]
      rw [← renderLoop_chunks (uniq.sort (· ≤ ·)).length (uniq.sort (· ≤ ·)) 0
        le_rfl rfl]
  · rw [List.all_eq_true]
    intro c hc
    have := chunks6_dropLast (uniq.sort (· ≤ ·)).length (uniq.sort (· ≤ ·))
      le_rfl c hc
    simp [this]
  · rw [List.all_eq_true]
    intro c hc
    have := chunks6_mem (uniq.sort (· ≤ ·)).length (uniq.sort (· ≤ ·))
      le_rfl c hc
    simp [this.2, List.isEmpty_iff, this.1]

end Vocabfinder
